import Mathlib

/-!
Verification of the algorithm-rs repository against its design specification.

The central component is the lock-free single-producer/single-consumer ring
buffer of src/ringbuffer.rs.  We give a shallow embedding of its state and
operations: `head`, `tail` and `counter` are `usize` counters, modelled as
natural numbers that every operation reduces modulo `2 ^ 64` exactly where the
Rust code wraps (`fetch_add`, `fetch_sub`, `wrapping_sub`); the backing
allocation is modelled as a total function `Nat → α` whose initial contents are
arbitrary (uninitialized memory).  Construction returns `Option`, with `none`
modelling the fatal `assert!` panics.  The standalone algorithms
(binary search, KMP search, Knuth shuffle) are embedded separately below.
-/

/-- The modulus of `usize` arithmetic on a 64-bit target: `2 ^ 64`. -/
def usizeMod : Nat := 18446744073709551616

/-- State of `RingBuffer<T>` from src/ringbuffer.rs: the raw allocation `buf`
(uninitialized slots hold arbitrary values), the fixed `capacity`, the
monotone `head` and `tail` positions and the live-handle `counter`.  All four
numeric fields are `usize` values. -/
structure RingBuffer (α : Type) where
  buf : Nat → α
  capacity : Nat
  head : Nat
  tail : Nat
  counter : Nat

namespace RingBuffer

variable {α : Type}

/-- `position_to_index`: turn a position into a buffer index with the
power-of-two mask `position & (cap - 1)`. -/
def position_to_index (cap position : Nat) : Nat :=
  position &&& (cap - 1)

/-- Rust `usize::is_power_of_two` (true exactly when the number is a power of
two); written as a bounded search so that it is kernel-computable. -/
def is_power_of_two (n : Nat) : Bool :=
  (List.range (n + 1)).any fun k => n == 2 ^ k

/-- `RingBuffer::with_capacity`.  The two `assert!` failures (zero capacity,
capacity not a power of two) are fatal and modelled as `none`; `mem` is the
arbitrary content of the fresh allocation. -/
def with_capacity (cap : Nat) (mem : Nat → α) : Option (RingBuffer α) :=
  if cap = 0 then none
  else if ! is_power_of_two cap then none
  else some { buf := mem, capacity := cap, head := 0, tail := 0, counter := 2 }

/-- `RingBuffer::len`: `tail.wrapping_sub(head)` on `usize`. -/
def len (rb : RingBuffer α) : Nat :=
  (rb.tail + usizeMod - rb.head) % usizeMod

/-- `RingBuffer::is_empty`. -/
def is_empty (rb : RingBuffer α) : Bool :=
  len rb == 0

/-- `RingBuffer::is_full`. -/
def is_full (rb : RingBuffer α) : Bool :=
  len rb == rb.capacity

/-- `RingBuffer::push`: reject when full, otherwise write the value at the
masked tail index and advance `tail` by one (`fetch_add` wraps on `usize`).
Returns the new state together with the success flag. -/
def push (rb : RingBuffer α) (value : α) : RingBuffer α × Bool :=
  if is_full rb then (rb, false)
  else
    let index := position_to_index rb.capacity rb.tail
    ({ rb with
        buf := fun i => if i = index then value else rb.buf i,
        tail := (rb.tail + 1) % usizeMod }, true)

/-- `RingBuffer::pop`: return nothing when empty, otherwise read the slot at
the masked head index and advance `head` by one. -/
def pop (rb : RingBuffer α) : RingBuffer α × Option α :=
  if is_empty rb then (rb, none)
  else
    let index := position_to_index rb.capacity rb.head
    ({ rb with head := (rb.head + 1) % usizeMod }, some (rb.buf index))

/-- The drain loop inside `RingBuffer::release`: pop (dropping each element)
until `pop` yields nothing, then deallocate.  The loop is embedded with an
explicit iteration bound (the Rust loop has none); the final flag records
whether the `dealloc` line was reached, and the list collects the elements
whose destructors the drain runs. -/
def releaseLoop : Nat → RingBuffer α → RingBuffer α × List α × Bool
  | 0, rb => (rb, [], false)
  | fuel + 1, rb =>
    match pop rb with
    | (rb1, none) => (rb1, [], true)
    | (rb1, some v) =>
      let r := releaseLoop fuel rb1
      (r.1, v :: r.2.1, r.2.2)

/-- `RingBuffer::release`: `counter.fetch_sub(1)` returns the previous value;
only when that previous value is `1` does the caller drain the buffer and free
the storage.  Result: new state, whether the storage was freed, and the
elements dropped by the drain.  `len rb + 1` iterations always suffice for the
drain loop (proved below for reachable states). -/
def release (rb : RingBuffer α) : RingBuffer α × Bool × List α :=
  let prev := rb.counter
  let rb1 : RingBuffer α := { rb with counter := (rb.counter + usizeMod - 1) % usizeMod }
  if prev = 1 then
    let r := releaseLoop (len rb1 + 1) rb1
    (r.1, r.2.2, r.2.1)
  else (rb1, false, [])

/-- The free function `ringbuffer(capacity)`: builds one shared core with
`with_capacity` (the writer and reader handles are thin pointers to this core,
so the core itself is the whole observable state). -/
def ringbuffer (cap : Nat) (mem : Nat → α) : Option (RingBuffer α) :=
  with_capacity cap mem

/-- Driver: push a list of values in order, collecting each push result. -/
def pushAll : RingBuffer α → List α → RingBuffer α × List Bool
  | rb, [] => (rb, [])
  | rb, v :: vs =>
    let r := push rb v
    let rest := pushAll r.1 vs
    (rest.1, r.2 :: rest.2)

/-- Driver: pop `n` times, collecting each pop result. -/
def popN : RingBuffer α → Nat → RingBuffer α × List (Option α)
  | rb, 0 => (rb, [])
  | rb, n + 1 =>
    let r := pop rb
    let rest := popN r.1 n
    (rest.1, r.2 :: rest.2)

/-- A single call in a push/pop call sequence. -/
inductive Op (α : Type) where
  | push (value : α)
  | pop

/-- Driver: run a call sequence, counting the pushes that returned `true` and
the pops that returned `some`. -/
def runOps : List (Op α) → RingBuffer α → RingBuffer α × Nat × Nat
  | [], rb => (rb, 0, 0)
  | Op.push v :: ops, rb =>
    let r := push rb v
    let rest := runOps ops r.1
    (rest.1, (if r.2 then 1 else 0) + rest.2.1, rest.2.2)
  | Op.pop :: ops, rb =>
    let r := pop rb
    let rest := runOps ops r.1
    (rest.1, rest.2.1, (if r.2.isSome then 1 else 0) + rest.2.2)

/-- Representation invariant of reachable states: `H` and `T` are the abstract
unbounded head/tail positions, `q` the queue contents.  The stored fields hold
the positions reduced modulo `usizeMod`, the occupancy is `q.length`, and slot
`(H + j) % cap` holds the `j`-th queued element. -/
def Inv (cap H T : Nat) (q : List α) (rb : RingBuffer α) : Prop :=
  rb.capacity = cap ∧ rb.head = H % usizeMod ∧ rb.tail = T % usizeMod ∧
  T = H + q.length ∧ q.length ≤ cap ∧
  ∀ j : Fin q.length, rb.buf ((H + j.val) % cap) = q.get j

end RingBuffer

/-- Loop of `binary_search` (src/binary_search.rs), over `Int` elements.
All `usize` arithmetic that cannot underflow is kept on `Nat`; the one
subtraction that can underflow is `middle - 1`, taken when the key is below
`input[middle]` and `middle = 0`: that is an arithmetic-overflow panic in the
Rust code (or, with wrapped arithmetic, an immediate out-of-bounds index
panic), modelled as `none`.  `some r` is a normal return with result `r`;
out-of-bounds indexing is likewise `none`. -/
def bsLoop (input : List Int) (key : Int) (low high : Nat) : Option (Option Nat) :=
  if _hlh : low ≤ high then
    let middle := low + (high - low) / 2
    match input.get? middle with
    | none => none
    | some mid_value =>
      if key = mid_value then some (some middle)
      else if key > mid_value then bsLoop input key (middle + 1) high
      else if _h0 : middle = 0 then none
      else bsLoop input key low (middle - 1)
  else some none
termination_by high + 1 - low
decreasing_by
  all_goals omega

/-- `binary_search` (src/binary_search.rs): empty input returns `None`,
otherwise the search loop runs on `[0, len - 1]`. -/
def binary_search (input : List Int) (key : Int) : Option (Option Nat) :=
  if input.length = 0 then some none
  else bsLoop input key 0 (input.length - 1)

/-- Loop of `get_next` (src/kmp_search.rs) computing the partial-match table.
`fuel` bounds the number of iterations (the Rust loop has no syntactic bound);
`none` means the fuel ran out or an index was out of bounds (a panic). -/
def getNextLoop (pattern : List Char) : Nat → List Nat → Nat → Nat → Option (List Nat)
  | 0, _, _, _ => none
  | fuel + 1, next, lps_len, j =>
    if j < pattern.length then
      match pattern.get? (j - 1), pattern.get? lps_len with
      | some a, some b =>
        if a = b then getNextLoop pattern fuel (next.set j (lps_len + 1)) (lps_len + 1) (j + 1)
        else if lps_len = 0 then getNextLoop pattern fuel (next.set j 0) 0 (j + 1)
        else
          match next.get? lps_len with
          | some nl => getNextLoop pattern fuel next nl j
          | none => none
      | _, _ => none
    else some next

/-- `get_next` (src/kmp_search.rs): zero-initialised table, `lps_len = 0`,
`j = 2`. -/
def get_next (pattern : List Char) (fuel : Nat) : Option (List Nat) :=
  getNextLoop pattern fuel (List.replicate pattern.length 0) 0 2

/-- Main matching loop of `kmp_search` (src/kmp_search.rs).  Note the
`j == 0 ||` disjunct short-circuits: when `j = 0` both indices advance
without comparing any characters. -/
def kmpLoop (text pattern : List Char) (next : List Nat) : Nat → Nat → Nat → Option (Nat × Nat)
  | 0, _, _ => none
  | fuel + 1, i, j =>
    if i < text.length ∧ j < pattern.length then
      if j = 0 then kmpLoop text pattern next fuel (i + 1) (j + 1)
      else
        match text.get? i, pattern.get? j with
        | some a, some b =>
          if a = b then kmpLoop text pattern next fuel (i + 1) (j + 1)
          else
            match next.get? j with
            | some nj => kmpLoop text pattern next fuel i nj
            | none => none
        | _, _ => none
    else some (i, j)

/-- `kmp_search` (src/kmp_search.rs); `fuel` bounds both loops, `none` is
fuel exhaustion or a panic, `some r` the Rust return value. -/
def kmp_search (text pattern : List Char) (fuel : Nat) : Option (Option Nat) :=
  if pattern.length = 0 then some (some 0)
  else if text.length = 0 then some none
  else if text.length < pattern.length then some none
  else
    match get_next pattern fuel with
    | none => none
    | some next =>
      match kmpLoop text pattern next fuel 0 0 with
      | none => none
      | some (i, j) =>
        if j ≥ pattern.length then some (some (i - pattern.length)) else some none

/-- `slice::swap` as used by `knuth_shuffle`: swap two positions, panicking
(`none`) when an index is out of bounds. -/
def swapIdx {α : Type} (l : List α) (i j : Nat) : Option (List α) :=
  match l.get? i, l.get? j with
  | some a, some b => some ((l.set i b).set j a)
  | _, _ => none

/-- Loop of `knuth_shuffle` (src/knuth_shuffle.rs): `for i in (0..len).rev()`
swaps position `i` with `rand i % (i + 1)`, where `rand` is the stream of
`rand::random::<usize>()` draws, one per iteration. -/
def shuffleLoop {α : Type} (rand : Nat → Nat) : Nat → List α → Option (List α)
  | 0, l => some l
  | n + 1, l =>
    match swapIdx l n (rand n % (n + 1)) with
    | some l1 => shuffleLoop rand n l1
    | none => none

/-- `knuth_shuffle` (src/knuth_shuffle.rs). -/
def knuth_shuffle {α : Type} (input : List α) (rand : Nat → Nat) : Option (List α) :=
  shuffleLoop rand input.length input

namespace RingBuffer

variable {α : Type}

theorem is_power_of_two_spec (n : Nat) :
    is_power_of_two n = true ↔ ∃ k, n = 2 ^ k := by
  unfold is_power_of_two
  rw [List.any_eq_true]
  constructor
  · rintro ⟨k, -, hk⟩
    exact ⟨k, by simpa using hk⟩
  · rintro ⟨k, rfl⟩
    refine ⟨k, List.mem_range.mpr ?_, by simp⟩
    have := Nat.lt_two_pow k
    omega

theorem cap_dvd_usizeMod {cap k : Nat} (hk : cap = 2 ^ k) (hW : cap < usizeMod) :
    cap ∣ usizeMod := by
  subst hk
  have h64 : usizeMod = 2 ^ 64 := by norm_num [usizeMod]
  have hk64 : k ≤ 64 := by
    by_contra hgt
    have : (2 : Nat) ^ 64 ≤ 2 ^ k := Nat.pow_le_pow_right (by norm_num) (by omega)
    omega
  rw [h64]
  exact pow_dvd_pow 2 hk64

theorem position_to_index_mod {cap k : Nat} (hk : cap = 2 ^ k) (hW : cap < usizeMod)
    (p : Nat) : position_to_index cap (p % usizeMod) = p % cap := by
  have hdvd := cap_dvd_usizeMod hk hW
  subst hk
  unfold position_to_index
  rw [Nat.and_pow_two_sub_one_eq_mod]
  exact Nat.mod_mod_of_dvd p hdvd

theorem len_eq {cap H T : Nat} {q : List α} {rb : RingBuffer α}
    (hW : cap < usizeMod) (h : Inv cap H T q rb) : len rb = q.length := by
  obtain ⟨-, hh, ht, hT, hq, -⟩ := h
  unfold len
  rw [hh, ht]
  unfold usizeMod at *
  omega

theorem push_succ {cap k H T : Nat} {q : List α} {rb : RingBuffer α}
    (hk : cap = 2 ^ k) (hW : cap < usizeMod)
    (h : Inv cap H T q rb) (hlt : q.length < cap) (v : α) :
    ∃ rb1, push rb v = (rb1, true) ∧ Inv cap H (T + 1) (q ++ [v]) rb1 ∧
      rb1.counter = rb.counter := by
  obtain ⟨hc, hh, ht, hT, hq, hbuf⟩ := h
  have hlen : len rb = q.length := len_eq hW ⟨hc, hh, ht, hT, hq, hbuf⟩
  have hfull : is_full rb = false := by
    simp only [is_full, hlen, hc, beq_eq_false_iff_ne, ne_eq]
    omega
  have hpush : push rb v =
      ({ rb with
          buf := fun i => if i = position_to_index rb.capacity rb.tail then v else rb.buf i,
          tail := (rb.tail + 1) % usizeMod }, true) := by
    simp [push, hfull]
  refine ⟨_, hpush, ?_, rfl⟩
  have hidx : position_to_index rb.capacity rb.tail = T % cap := by
    rw [hc, ht]; exact position_to_index_mod hk hW T
  refine ⟨hc, hh, ?_, by simp [hT]; omega, by simp; omega, ?_⟩
  · show (rb.tail + 1) % usizeMod = (T + 1) % usizeMod
    rw [ht]
    unfold usizeMod
    omega
  · intro j
    have hjlen : j.val < q.length + 1 := by simpa using j.isLt
    show (if (H + j.val) % cap = position_to_index rb.capacity rb.tail then v
          else rb.buf ((H + j.val) % cap)) = (q ++ [v]).get j
    rw [hidx]
    rcases Nat.lt_or_ge j.val q.length with hj | hj
    · rw [if_neg, show (q ++ [v]).get j = q.get ⟨j.val, hj⟩ from List.get_append j.val hj]
      · exact hbuf ⟨j.val, hj⟩
      · intro heq
        have hm : Nat.ModEq cap j.val q.length := by
          have : Nat.ModEq cap (H + j.val) (H + q.length) := by
            show (H + j.val) % cap = (H + q.length) % cap
            rw [heq, hT]
          exact Nat.ModEq.add_left_cancel' H this
        have hdvd := (Nat.modEq_iff_dvd' (Nat.le_of_lt hj)).mp hm
        have := Nat.le_of_dvd (by omega) hdvd
        omega
    · have hjq : j.val = q.length := by omega
      rw [if_pos (by rw [hjq, hT])]
      have h1 : (q ++ [v]).get j = (q ++ [v])[j.val] := rfl
      have h2 : (q ++ [v])[j.val] = v :=
        List.getElem_concat_length q v j.val hjq (by simp; omega)
      rw [h1, h2]

theorem push_fail {cap H T : Nat} {q : List α} {rb : RingBuffer α}
    (hW : cap < usizeMod) (h : Inv cap H T q rb) (hfull : q.length = cap) (v : α) :
    push rb v = (rb, false) := by
  have hlen : len rb = q.length := len_eq hW h
  have : is_full rb = true := by
    simp [is_full, hlen, h.1, hfull]
  rw [push, this]
  simp

theorem pop_succ {cap k H T : Nat} {a : α} {q : List α} {rb : RingBuffer α}
    (hk : cap = 2 ^ k) (hW : cap < usizeMod)
    (h : Inv cap H T (a :: q) rb) :
    ∃ rb1, pop rb = (rb1, some a) ∧ Inv cap (H + 1) T q rb1 ∧
      rb1.counter = rb.counter := by
  obtain ⟨hc, hh, ht, hT, hq, hbuf⟩ := h
  have hlen : len rb = q.length + 1 := by
    simpa using len_eq hW ⟨hc, hh, ht, hT, hq, hbuf⟩
  have hem : is_empty rb = false := by
    simp [is_empty, hlen]
  have hidx : position_to_index rb.capacity rb.head = H % cap := by
    rw [hc, hh]; exact position_to_index_mod hk hW H
  have hread : rb.buf (position_to_index rb.capacity rb.head) = a := by
    rw [hidx]
    have := hbuf ⟨0, by simp⟩
    simpa using this
  have hpop : pop rb = ({ rb with head := (rb.head + 1) % usizeMod }, some a) := by
    simp [pop, hem, hread]
  refine ⟨_, hpop, ?_, rfl⟩
  refine ⟨hc, ?_, ht, by simp at hT ⊢; omega, by simp at hq ⊢; omega, ?_⟩
  · show (rb.head + 1) % usizeMod = (H + 1) % usizeMod
    rw [hh]
    unfold usizeMod
    omega
  · intro j
    have := hbuf ⟨j.val + 1, by simp⟩
    simp only [List.get_cons_succ] at this
    show rb.buf ((H + 1 + j.val) % cap) = q.get j
    rw [show H + 1 + j.val = H + (j.val + 1) by omega]
    exact this

theorem pop_none {cap H T : Nat} {rb : RingBuffer α}
    (hW : cap < usizeMod) (h : Inv cap H T [] rb) :
    pop rb = (rb, none) := by
  have hlen : len rb = 0 := by simpa using len_eq hW h
  have hem : is_empty rb = true := by simp [is_empty, hlen]
  simp [pop, hem]

theorem init_inv {cap : Nat} {mem : Nat → α} {rb : RingBuffer α}
    (h : with_capacity cap mem = some rb) :
    Inv cap 0 0 [] rb ∧ (∃ k, cap = 2 ^ k) ∧ rb.counter = 2 ∧ 0 < cap := by
  unfold with_capacity at h
  by_cases h0 : cap = 0
  · simp [h0] at h
  rw [if_neg h0] at h
  by_cases hp : is_power_of_two cap
  · rw [if_neg (by simp [hp])] at h
    obtain rfl : _ = rb := Option.some.inj h
    refine ⟨⟨rfl, by simp, by simp, by simp, by simp, fun j => j.elim0⟩,
      (is_power_of_two_spec cap).mp hp, rfl, by omega⟩
  · rw [if_pos (by simpa using hp)] at h
    exact absurd h (by simp)

theorem pushAll_inv {cap k : Nat} (hk : cap = 2 ^ k) (hW : cap < usizeMod) :
    ∀ (vs : List α) (H T : Nat) (q : List α) (rb : RingBuffer α),
      Inv cap H T q rb → q.length + vs.length ≤ cap →
      ∃ rb1, pushAll rb vs = (rb1, List.replicate vs.length true) ∧
        Inv cap H (T + vs.length) (q ++ vs) rb1 := by
  intro vs
  induction vs with
  | nil =>
    intro H T q rb hInv hle
    exact ⟨rb, by simp [pushAll], by simpa using hInv⟩
  | cons v vs ih =>
    intro H T q rb hInv hle
    have hlt : q.length < cap := by simp at hle; omega
    obtain ⟨rb1, hpush, hInv1, -⟩ := push_succ hk hW hInv hlt v
    obtain ⟨rb2, hrest, hInv2⟩ := ih H (T + 1) (q ++ [v]) rb1 hInv1 (by simp at hle ⊢; omega)
    refine ⟨rb2, ?_, ?_⟩
    · simp only [pushAll, hpush, hrest]
      simp [List.replicate_succ]
    · have h1 : T + 1 + vs.length = T + (v :: vs).length := by simp; omega
      have h2 : q ++ [v] ++ vs = q ++ v :: vs := by simp
      rw [h1, h2] at hInv2
      exact hInv2

theorem popN_inv {cap k : Nat} (hk : cap = 2 ^ k) (hW : cap < usizeMod) :
    ∀ (n H T : Nat) (q : List α) (rb : RingBuffer α),
      Inv cap H T q rb → n ≤ q.length →
      ∃ rb1, popN rb n = (rb1, (q.take n).map some) ∧
        Inv cap (H + n) T (q.drop n) rb1 := by
  intro n
  induction n with
  | zero =>
    intro H T q rb hInv hle
    exact ⟨rb, by simp [popN], by simpa using hInv⟩
  | succ n ih =>
    intro H T q rb hInv hle
    match q with
    | [] => simp at hle
    | a :: q =>
      obtain ⟨rb1, hpop, hInv1, -⟩ := pop_succ hk hW hInv
      obtain ⟨rb2, hrest, hInv2⟩ := ih (H + 1) T q rb1 hInv1 (by simp at hle; omega)
      refine ⟨rb2, ?_, ?_⟩
      · simp only [popN, hpop, hrest, List.take_succ_cons, List.map_cons]
      · have h1 : H + 1 + n = H + (n + 1) := by omega
        rw [h1] at hInv2
        exact hInv2

theorem runOps_inv {cap k : Nat} (hk : cap = 2 ^ k) (hW : cap < usizeMod) :
    ∀ (ops : List (Op α)) (H T : Nat) (q : List α) (rb : RingBuffer α),
      Inv cap H T q rb →
      ∃ H1 T1 q1, Inv cap H1 T1 q1 (runOps ops rb).1 ∧
        T1 = T + (runOps ops rb).2.1 ∧ H1 = H + (runOps ops rb).2.2 := by
  intro ops
  induction ops with
  | nil =>
    intro H T q rb hInv
    exact ⟨H, T, q, by simpa [runOps] using hInv, by simp [runOps], by simp [runOps]⟩
  | cons op ops ih =>
    intro H T q rb hInv
    match op with
    | Op.push v =>
      rcases Nat.lt_or_ge q.length cap with hlt | hge
      · obtain ⟨rb1, hpush, hInv1, -⟩ := push_succ hk hW hInv hlt v
        obtain ⟨H1, T1, q1, hI, hT1, hH1⟩ := ih H (T + 1) (q ++ [v]) rb1 hInv1
        have hrun : runOps (Op.push v :: ops) rb =
            ((runOps ops rb1).1, 1 + (runOps ops rb1).2.1, (runOps ops rb1).2.2) := by
          simp [runOps, hpush]
        rw [hrun]
        exact ⟨H1, T1, q1, hI, by simp; omega, by simp; omega⟩
      · have hfull : q.length = cap := by
          have := hInv.2.2.2.2.1
          omega
        have hpush := push_fail hW hInv hfull v
        obtain ⟨H1, T1, q1, hI, hT1, hH1⟩ := ih H T q rb hInv
        have hrun : runOps (Op.push v :: ops) rb =
            ((runOps ops rb).1, 0 + (runOps ops rb).2.1, (runOps ops rb).2.2) := by
          simp [runOps, hpush]
        rw [hrun]
        exact ⟨H1, T1, q1, hI, by simp; omega, by simp; omega⟩
    | Op.pop =>
      match q with
      | [] =>
        have hpop := pop_none hW hInv
        obtain ⟨H1, T1, q1, hI, hT1, hH1⟩ := ih H T [] rb hInv
        have hrun : runOps (Op.pop :: ops) rb =
            ((runOps ops rb).1, (runOps ops rb).2.1, 0 + (runOps ops rb).2.2) := by
          simp [runOps, hpop]
        rw [hrun]
        exact ⟨H1, T1, q1, hI, by simp; omega, by simp; omega⟩
      | a :: q =>
        obtain ⟨rb1, hpop, hInv1, -⟩ := pop_succ hk hW hInv
        obtain ⟨H1, T1, q1, hI, hT1, hH1⟩ := ih (H + 1) T q rb1 hInv1
        have hrun : runOps (Op.pop :: ops) rb =
            ((runOps ops rb1).1, (runOps ops rb1).2.1, 1 + (runOps ops rb1).2.2) := by
          simp [runOps, hpop]
        rw [hrun]
        exact ⟨H1, T1, q1, hI, by simp; omega, by simp; omega⟩

theorem releaseLoop_inv {cap k : Nat} (hk : cap = 2 ^ k) (hW : cap < usizeMod) :
    ∀ (q : List α) (H T : Nat) (rb : RingBuffer α),
      Inv cap H T q rb →
      ∃ rb1, releaseLoop (q.length + 1) rb = (rb1, q, true) ∧
        Inv cap (H + q.length) T [] rb1 ∧ rb1.counter = rb.counter := by
  intro q
  induction q with
  | nil =>
    intro H T rb hInv
    have hpop := pop_none hW hInv
    exact ⟨rb, by simp [releaseLoop, hpop], by simpa using hInv, rfl⟩
  | cons a q ih =>
    intro H T rb hInv
    obtain ⟨rb1, hpop, hInv1, hcnt1⟩ := pop_succ hk hW hInv
    obtain ⟨rb2, hrest, hInv2, hcnt2⟩ := ih (H + 1) T rb1 hInv1
    refine ⟨rb2, ?_, ?_, by rw [hcnt2, hcnt1]⟩
    · show releaseLoop (q.length + 1 + 1) rb = (rb2, a :: q, true)
      rw [releaseLoop, hpop]
      simp [hrest]
    · have h1 : H + 1 + q.length = H + (a :: q).length := by simp; omega
      rw [h1] at hInv2
      exact hInv2

/-- C2: on any state whose occupancy `tail - head` (the value `len()`
computes) equals the capacity, `push` returns `false` and leaves the whole
state unchanged: same `head`, same `tail`, same `len()`, and every stored
element untouched — no element is overwritten or accepted. -/
theorem c2_push_full_rejects_and_preserves (rb : RingBuffer α) (v : α)
    (h : len rb = rb.capacity) :
    push rb v = (rb, false) ∧ (push rb v).2 = false ∧
    (push rb v).1.head = rb.head ∧ (push rb v).1.tail = rb.tail ∧
    len (push rb v).1 = len rb ∧ ∀ i, (push rb v).1.buf i = rb.buf i := by
  have hfull : is_full rb = true := by simp [is_full, h]
  have hp : push rb v = (rb, false) := by simp [push, hfull]
  rw [hp]
  exact ⟨rfl, rfl, rfl, rfl, rfl, fun i => rfl⟩

theorem c2_push_full_rejects_and_preserves_witness :
    len (⟨fun _ => 0, 1, 0, 1, 2⟩ : RingBuffer Nat) =
      (⟨fun _ => 0, 1, 0, 1, 2⟩ : RingBuffer Nat).capacity ∧
    push (⟨fun _ => 0, 1, 0, 1, 2⟩ : RingBuffer Nat) 7 =
      ((⟨fun _ => 0, 1, 0, 1, 2⟩ : RingBuffer Nat), false) :=
  ⟨rfl, (c2_push_full_rejects_and_preserves (⟨fun _ => 0, 1, 0, 1, 2⟩ : RingBuffer Nat) 7 rfl).1⟩

/-- C3: on any state whose occupancy `tail - head` is zero, `pop` returns
`none` and leaves the whole state unchanged: same `head`, same `tail`, same
`len()`. -/
theorem c3_pop_empty_returns_none_and_preserves (rb : RingBuffer α)
    (h : len rb = 0) :
    pop rb = (rb, none) ∧ (pop rb).2 = none ∧
    (pop rb).1.head = rb.head ∧ (pop rb).1.tail = rb.tail ∧
    len (pop rb).1 = len rb := by
  have hem : is_empty rb = true := by simp [is_empty, h]
  have hp : pop rb = (rb, none) := by simp [pop, hem]
  rw [hp]
  exact ⟨rfl, rfl, rfl, rfl, rfl⟩

theorem c3_pop_empty_returns_none_and_preserves_witness :
    len (⟨fun _ => 0, 1, 0, 0, 2⟩ : RingBuffer Nat) = 0 ∧
    pop (⟨fun _ => 0, 1, 0, 0, 2⟩ : RingBuffer Nat) =
      ((⟨fun _ => 0, 1, 0, 0, 2⟩ : RingBuffer Nat), none) :=
  ⟨rfl, (c3_pop_empty_returns_none_and_preserves (⟨fun _ => 0, 1, 0, 0, 2⟩ : RingBuffer Nat) rfl).1⟩

theorem release_prev2 {rb : RingBuffer α} (h : rb.counter = 2) :
    release rb = ({ rb with counter := 1 }, false, []) := by
  have hm : (2 + usizeMod - 1) % usizeMod = 1 := by norm_num [usizeMod]
  simp [release, h, hm]
  norm_num [usizeMod]

theorem release_prev1 {cap k H T : Nat} {q : List α} {rb : RingBuffer α}
    (hk : cap = 2 ^ k) (hW : cap < usizeMod)
    (hInv : Inv cap H T q rb) (h : rb.counter = 1) :
    ∃ rb2, release rb = (rb2, true, q) ∧
      Inv cap (H + q.length) T [] rb2 ∧ rb2.counter = 0 := by
  obtain ⟨hc, hh, ht, hT, hq, hbuf⟩ := hInv
  have hm : (1 + usizeMod - 1) % usizeMod = 0 := by norm_num [usizeMod]
  have hInv0 : Inv cap H T q { rb with counter := 0 } := ⟨hc, hh, ht, hT, hq, hbuf⟩
  have hlen0 : len { rb with counter := 0 } = q.length := len_eq hW hInv0
  obtain ⟨rb2, hrel, hInv2, hcnt2⟩ := releaseLoop_inv hk hW q H T _ hInv0
  refine ⟨rb2, ?_, hInv2, hcnt2⟩
  simp only [release, h, hm, if_pos]
  rw [hlen0, hrel]

/-- C4: the release protocol is a three-state machine on the live-handle
counter, which construction starts at 2.  Each teardown call decrements the
counter once.  The first of the two calls (counter 2 → 1) frees nothing,
drops nothing and leaves the buffer contents and positions untouched; the
second (counter 1 → 0) — i.e. whichever handle is dropped last, in either
order, since both handles run this same procedure on the shared core —
drains exactly the queued elements `q` (each pushed-but-never-popped element
dropped exactly once, in order) and then frees the backing storage; this is
the only call on which the freeing flag is set. -/
theorem c4_release_protocol (cap k H T : Nat) (q : List α) (rb : RingBuffer α)
    (hk : cap = 2 ^ k) (hW : cap < usizeMod)
    (hInv : Inv cap H T q rb) (hcnt : rb.counter = 2) :
    (release rb).2.1 = false ∧ (release rb).2.2 = [] ∧
    (release rb).1.counter = 1 ∧
    (release rb).1.head = rb.head ∧ (release rb).1.tail = rb.tail ∧
    (release rb).1.buf = rb.buf ∧
    (release (release rb).1).2.1 = true ∧
    (release (release rb).1).2.2 = q ∧
    (release (release rb).1).1.counter = 0 ∧
    len (release (release rb).1).1 = 0 := by
  have h1 := release_prev2 hcnt
  obtain ⟨hc, hh, ht, hT, hq, hbuf⟩ := hInv
  have hInv1 : Inv cap H T q (release rb).1 := by
    rw [h1]
    exact ⟨hc, hh, ht, hT, hq, hbuf⟩
  have hcnt1 : (release rb).1.counter = 1 := by rw [h1]
  obtain ⟨rb2, h2, hInv2, hcnt2⟩ := release_prev1 hk hW hInv1 hcnt1
  refine ⟨by rw [h1], by rw [h1], hcnt1, by rw [h1], by rw [h1], by rw [h1],
    by rw [h2], by rw [h2], by rw [h2]; exact hcnt2, ?_⟩
  rw [h2]
  simpa using len_eq hW hInv2

theorem c4_release_protocol_witness :
    ((1 : Nat) = 2 ^ 0) ∧ ((1 : Nat) < usizeMod) ∧
    (⟨fun _ => 0, 1, 0, 0, 2⟩ : RingBuffer Nat).counter = 2 ∧
    ((release (⟨fun _ => 0, 1, 0, 0, 2⟩ : RingBuffer Nat)).2.1 = false ∧
     (release (⟨fun _ => 0, 1, 0, 0, 2⟩ : RingBuffer Nat)).2.2 = [] ∧
     (release (⟨fun _ => 0, 1, 0, 0, 2⟩ : RingBuffer Nat)).1.counter = 1 ∧
     (release (⟨fun _ => 0, 1, 0, 0, 2⟩ : RingBuffer Nat)).1.head =
       (⟨fun _ => 0, 1, 0, 0, 2⟩ : RingBuffer Nat).head ∧
     (release (⟨fun _ => 0, 1, 0, 0, 2⟩ : RingBuffer Nat)).1.tail =
       (⟨fun _ => 0, 1, 0, 0, 2⟩ : RingBuffer Nat).tail ∧
     (release (⟨fun _ => 0, 1, 0, 0, 2⟩ : RingBuffer Nat)).1.buf =
       (⟨fun _ => 0, 1, 0, 0, 2⟩ : RingBuffer Nat).buf ∧
     (release (release (⟨fun _ => 0, 1, 0, 0, 2⟩ : RingBuffer Nat)).1).2.1 = true ∧
     (release (release (⟨fun _ => 0, 1, 0, 0, 2⟩ : RingBuffer Nat)).1).2.2 = [] ∧
     (release (release (⟨fun _ => 0, 1, 0, 0, 2⟩ : RingBuffer Nat)).1).1.counter = 0 ∧
     len (release (release (⟨fun _ => 0, 1, 0, 0, 2⟩ : RingBuffer Nat)).1).1 = 0) :=
  ⟨by norm_num, by norm_num [usizeMod], rfl,
    c4_release_protocol 1 0 0 0 [] (⟨fun _ => 0, 1, 0, 0, 2⟩ : RingBuffer Nat)
      (by norm_num) (by norm_num [usizeMod])
      ⟨rfl, rfl, rfl, rfl, by decide, fun j => j.elim0⟩ rfl⟩

/-- C5: for any sequence of push/pop calls run on a freshly constructed
buffer (the sequential model of the single-writer/single-reader rule),
`len()` afterwards equals the number of pushes that returned `true` minus the
number of pops that returned `some`, and that difference never underflows;
in particular `len()` is `0` at construction. -/
theorem c5_len_counts_successes (cap : Nat) (mem : Nat → α) (rb0 : RingBuffer α)
    (ops : List (Op α)) (h0 : with_capacity cap mem = some rb0) (hW : cap < usizeMod) :
    len rb0 = 0 ∧
    len (runOps ops rb0).1 = (runOps ops rb0).2.1 - (runOps ops rb0).2.2 ∧
    (runOps ops rb0).2.2 ≤ (runOps ops rb0).2.1 := by
  obtain ⟨hInv, ⟨k, hk⟩, -, -⟩ := init_inv h0
  refine ⟨by simpa using len_eq hW hInv, ?_⟩
  obtain ⟨H1, T1, q1, hI, hT1, hH1⟩ := runOps_inv hk hW ops 0 0 [] rb0 hInv
  have hlen := len_eq hW hI
  have hq : T1 = H1 + q1.length := hI.2.2.2.1
  constructor <;> omega

theorem c5_len_counts_successes_witness :
    with_capacity 2 (fun _ => 0) = some (⟨fun _ => 0, 2, 0, 0, 2⟩ : RingBuffer Nat) ∧
    (2 : Nat) < usizeMod ∧
    (len (⟨fun _ => 0, 2, 0, 0, 2⟩ : RingBuffer Nat) = 0 ∧
     len (runOps [Op.push 5, Op.pop] (⟨fun _ => 0, 2, 0, 0, 2⟩ : RingBuffer Nat)).1 =
       (runOps [Op.push 5, Op.pop] (⟨fun _ => 0, 2, 0, 0, 2⟩ : RingBuffer Nat)).2.1 -
         (runOps [Op.push 5, Op.pop] (⟨fun _ => 0, 2, 0, 0, 2⟩ : RingBuffer Nat)).2.2 ∧
     (runOps [Op.push 5, Op.pop] (⟨fun _ => 0, 2, 0, 0, 2⟩ : RingBuffer Nat)).2.2 ≤
       (runOps [Op.push 5, Op.pop] (⟨fun _ => 0, 2, 0, 0, 2⟩ : RingBuffer Nat)).2.1) :=
  ⟨rfl, by norm_num [usizeMod],
    c5_len_counts_successes 2 (fun _ => 0) _ [Op.push 5, Op.pop] rfl (by norm_num [usizeMod])⟩

/-- C6: construction (`with_capacity`, and the `ringbuffer` wiring function)
fails fatally exactly when the requested capacity is zero or not a power of
two; it never rounds or resizes, and on any nonzero power of two it succeeds
and returns a core whose capacity is exactly the request, with `head`,
`tail` at zero, the live-handle counter at 2 and the untouched fresh
allocation as storage. -/
theorem c6_construction_precondition (cap : Nat) (mem : Nat → α) :
    (with_capacity cap mem = none ↔ cap = 0 ∨ ¬ ∃ k, cap = 2 ^ k) ∧
    (ringbuffer cap mem = none ↔ cap = 0 ∨ ¬ ∃ k, cap = 2 ^ k) ∧
    ∀ rb, with_capacity cap mem = some rb →
      rb.capacity = cap ∧ rb.head = 0 ∧ rb.tail = 0 ∧ rb.counter = 2 ∧ rb.buf = mem := by
  have hiff : with_capacity cap mem = none ↔ cap = 0 ∨ ¬ ∃ k, cap = 2 ^ k := by
    unfold with_capacity
    by_cases h0 : cap = 0
    · simp [h0]
    by_cases hp : is_power_of_two cap
    · simp only [if_neg h0, hp, Bool.not_true, Bool.false_eq_true, if_false]
      simp only [h0, false_or]
      constructor
      · intro h
        exact absurd h (by simp)
      · intro h
        exact absurd ((is_power_of_two_spec cap).mp hp) h
    · have hp' : is_power_of_two cap = false := by simpa using hp
      simp only [if_neg h0, hp', Bool.not_false, if_true]
      constructor
      · intro _h
        refine Or.inr fun hex => ?_
        rw [(is_power_of_two_spec cap).mpr hex] at hp'
        exact absurd hp' (by simp)
      · intro _h
        trivial
  refine ⟨hiff, hiff, ?_⟩
  intro rb h
  unfold with_capacity at h
  by_cases h0 : cap = 0
  · rw [if_pos h0] at h
    exact absurd h (by simp)
  rw [if_neg h0] at h
  by_cases hp : is_power_of_two cap
  · rw [if_neg (by simp [hp])] at h
    obtain rfl : _ = rb := Option.some.inj h
    exact ⟨rfl, rfl, rfl, rfl, rfl⟩
  · rw [if_pos (by simpa using hp)] at h
    exact absurd h (by simp)

theorem c6_construction_precondition_witness :
    (with_capacity 6 (fun _ => 0) = (none : Option (RingBuffer Nat)) ↔
      (6 : Nat) = 0 ∨ ¬ ∃ k, (6 : Nat) = 2 ^ k) ∧
    ((⟨fun _ => 0, 4, 0, 0, 2⟩ : RingBuffer Nat).capacity = 4 ∧
     (⟨fun _ => 0, 4, 0, 0, 2⟩ : RingBuffer Nat).head = 0 ∧
     (⟨fun _ => 0, 4, 0, 0, 2⟩ : RingBuffer Nat).tail = 0 ∧
     (⟨fun _ => 0, 4, 0, 0, 2⟩ : RingBuffer Nat).counter = 2 ∧
     (⟨fun _ => 0, 4, 0, 0, 2⟩ : RingBuffer Nat).buf = fun _ => 0) :=
  ⟨(c6_construction_precondition 6 (fun _ => 0)).1,
    (c6_construction_precondition 4 (fun _ => 0)).2.2
      (⟨fun _ => 0, 4, 0, 0, 2⟩ : RingBuffer Nat) rfl⟩

/-- C1: (general part) for every power-of-two capacity, pushing `N ≤ capacity`
values into a fresh buffer succeeds `N` times and the next `N` pops return
exactly those values, as `some`, in insertion order; (wraparound part) with
capacity 8: push 8 values, pop 2, push 2 more — wrapping the backing index
space — and the next 8 pops yield the 6 remaining original values followed by
the 2 new values, in that order. -/
theorem c1_fifo_order :
    (∀ (α : Type) (cap k : Nat) (mem : Nat → α) (rb0 : RingBuffer α) (vs : List α),
        cap = 2 ^ k → cap < usizeMod → with_capacity cap mem = some rb0 →
        vs.length ≤ cap →
        (pushAll rb0 vs).2 = List.replicate vs.length true ∧
        (popN (pushAll rb0 vs).1 vs.length).2 = vs.map some) ∧
    (∀ rb0 : RingBuffer Nat, with_capacity 8 (fun _ => 0) = some rb0 →
        (pushAll rb0 [10, 11, 12, 13, 14, 15, 16, 17]).2 = List.replicate 8 true ∧
        (popN (pushAll rb0 [10, 11, 12, 13, 14, 15, 16, 17]).1 2).2 =
          [some 10, some 11] ∧
        (pushAll (popN (pushAll rb0 [10, 11, 12, 13, 14, 15, 16, 17]).1 2).1
            [18, 19]).2 = [true, true] ∧
        (popN (pushAll (popN (pushAll rb0 [10, 11, 12, 13, 14, 15, 16, 17]).1 2).1
            [18, 19]).1 8).2 =
          [some 12, some 13, some 14, some 15, some 16, some 17, some 18, some 19]) := by
  constructor
  · intro α cap k mem rb0 vs hk hW h0 hlen
    obtain ⟨hInv, -, -, -⟩ := init_inv h0
    obtain ⟨rb1, hp1, hInv1⟩ := pushAll_inv hk hW vs 0 0 [] rb0 hInv (by simpa using hlen)
    have hInv1' : Inv cap 0 vs.length vs rb1 := by simpa using hInv1
    obtain ⟨rb2, hp2, hInv2⟩ := popN_inv hk hW vs.length 0 vs.length vs rb1 hInv1' le_rfl
    have e1 : (pushAll rb0 vs).1 = rb1 := by rw [hp1]
    refine ⟨by rw [hp1], ?_⟩
    rw [e1, hp2, List.take_length]
  · intro rb0 h0
    have hk : (8 : Nat) = 2 ^ 3 := by norm_num
    have hW : (8 : Nat) < usizeMod := by norm_num [usizeMod]
    obtain ⟨hInv, -, -, -⟩ := init_inv h0
    obtain ⟨rb1, hp1, hInv1⟩ :=
      pushAll_inv hk hW [10, 11, 12, 13, 14, 15, 16, 17] 0 0 [] rb0 hInv (by simp)
    have hInv1' : Inv 8 0 8 [10, 11, 12, 13, 14, 15, 16, 17] rb1 := by simpa using hInv1
    obtain ⟨rb2, hp2, hInv2⟩ :=
      popN_inv hk hW 2 0 8 [10, 11, 12, 13, 14, 15, 16, 17] rb1 hInv1' (by simp)
    have hInv2' : Inv 8 2 8 [12, 13, 14, 15, 16, 17] rb2 := by simpa using hInv2
    obtain ⟨rb3, hp3, hInv3⟩ :=
      pushAll_inv hk hW [18, 19] 2 8 [12, 13, 14, 15, 16, 17] rb2 hInv2' (by simp)
    have hInv3' : Inv 8 2 10 [12, 13, 14, 15, 16, 17, 18, 19] rb3 := by simpa using hInv3
    obtain ⟨rb4, hp4, hInv4⟩ :=
      popN_inv hk hW 8 2 10 [12, 13, 14, 15, 16, 17, 18, 19] rb3 hInv3' (by simp)
    have e1 : (pushAll rb0 [10, 11, 12, 13, 14, 15, 16, 17]).1 = rb1 := by rw [hp1]
    have e2 : (popN rb1 2).1 = rb2 := by rw [hp2]
    have e3 : (pushAll rb2 [18, 19]).1 = rb3 := by rw [hp3]
    refine ⟨by rw [hp1]; rfl, ?_, ?_, ?_⟩
    · rw [e1, hp2]
      rfl
    · rw [e1, e2, hp3]
      rfl
    · rw [e1, e2, e3, hp4]
      rfl

theorem c1_fifo_order_witness :
    ((8 : Nat) = 2 ^ 3) ∧ ((8 : Nat) < usizeMod) ∧
    (with_capacity 8 (fun _ => 0) = some (⟨fun _ => 0, 8, 0, 0, 2⟩ : RingBuffer Nat)) ∧
    ([1, 2, 3].length ≤ 8) ∧
    ((pushAll (⟨fun _ => 0, 8, 0, 0, 2⟩ : RingBuffer Nat) [1, 2, 3]).2 =
        List.replicate [1, 2, 3].length true ∧
      (popN (pushAll (⟨fun _ => 0, 8, 0, 0, 2⟩ : RingBuffer Nat) [1, 2, 3]).1
          [1, 2, 3].length).2 = [1, 2, 3].map some) :=
  ⟨by norm_num, by norm_num [usizeMod], rfl, by norm_num,
    c1_fifo_order.1 Nat 8 3 (fun _ => 0) _ [1, 2, 3]
      (by norm_num) (by norm_num [usizeMod]) rfl (by norm_num)⟩

end RingBuffer

theorem cons_set_perm {α : Type} :
    ∀ (t : List α) (j : Nat) (hj : j < t.length) (a : α),
      List.Perm (t.get ⟨j, hj⟩ :: t.set j a) (a :: t) := by
  intro t
  induction t with
  | nil =>
    intro j hj a
    simp at hj
  | cons x t ih =>
    intro j hj a
    match j with
    | 0 =>
      exact List.Perm.swap a x t
    | j + 1 =>
      have hj' : j < t.length := by simpa using hj
      have step1 := List.Perm.swap x (t.get ⟨j, hj'⟩) (t.set j a)
      have step2 := (ih j hj' a).cons x
      have step3 := List.Perm.swap a x t
      show List.Perm (t.get ⟨j, hj'⟩ :: x :: t.set j a) (a :: x :: t)
      exact (step1.trans step2).trans step3

theorem swap_elements_perm {α : Type} :
    ∀ (l : List α) (i j : Nat) (hi : i < l.length) (hj : j < l.length),
      List.Perm ((l.set i (l.get ⟨j, hj⟩)).set j (l.get ⟨i, hi⟩)) l := by
  intro l
  induction l with
  | nil =>
    intro i j hi hj
    simp at hi
  | cons x t ih =>
    intro i j hi hj
    match i, j with
    | 0, 0 =>
      exact List.Perm.refl _
    | 0, m + 1 =>
      have hm : m < t.length := by simpa using hj
      show List.Perm (t.get ⟨m, hm⟩ :: t.set m x) (x :: t)
      exact cons_set_perm t m hm x
    | n + 1, 0 =>
      have hn : n < t.length := by simpa using hi
      show List.Perm (t.get ⟨n, hn⟩ :: t.set n x) (x :: t)
      exact cons_set_perm t n hn x
    | n + 1, m + 1 =>
      have hn : n < t.length := by simpa using hi
      have hm : m < t.length := by simpa using hj
      show List.Perm (x :: (t.set n (t.get ⟨m, hm⟩)).set m (t.get ⟨n, hn⟩)) (x :: t)
      exact (ih n m hn hm).cons x

theorem swapIdx_perm {α : Type} (l : List α) (i j : Nat)
    (hi : i < l.length) (hj : j < l.length) :
    ∃ l1, swapIdx l i j = some l1 ∧ List.Perm l1 l := by
  have hgi : l.get? i = some (l.get ⟨i, hi⟩) := List.get?_eq_get hi
  have hgj : l.get? j = some (l.get ⟨j, hj⟩) := List.get?_eq_get hj
  refine ⟨_, ?_, swap_elements_perm l i j hi hj⟩
  unfold swapIdx
  rw [hgi, hgj]

theorem shuffleLoop_perm {α : Type} (rand : Nat → Nat) :
    ∀ (n : Nat) (l : List α), n ≤ l.length →
      ∃ l1, shuffleLoop rand n l = some l1 ∧ List.Perm l1 l := by
  intro n
  induction n with
  | zero =>
    intro l _h
    exact ⟨l, rfl, List.Perm.refl l⟩
  | succ n ih =>
    intro l h
    have hi : n < l.length := by omega
    have hj : rand n % (n + 1) < l.length := by
      have := Nat.mod_lt (rand n) (show 0 < n + 1 by omega)
      omega
    obtain ⟨l1, hswap, hperm⟩ := swapIdx_perm l n (rand n % (n + 1)) hi hj
    have hlen : l1.length = l.length := hperm.length_eq
    obtain ⟨l2, hloop, hperm2⟩ := ih l1 (by omega)
    refine ⟨l2, ?_, hperm2.trans hperm⟩
    show shuffleLoop rand (n + 1) l = some l2
    simp only [shuffleLoop, hswap]
    exact hloop

/-- C10: for every input slice and every sequence of RNG draws,
`knuth_shuffle` completes (no out-of-bounds swap) and rearranges the slice in
place into a permutation of the input: the multiset of elements, and hence
the length, is preserved. -/
theorem c10_knuth_shuffle_permutes (α : Type) (input : List α) (rand : Nat → Nat) :
    ∃ out, knuth_shuffle input rand = some out ∧
      List.Perm out input ∧ (↑out : Multiset α) = (↑input : Multiset α) ∧
      out.length = input.length := by
  obtain ⟨out, hrun, hperm⟩ := shuffleLoop_perm rand input.length input le_rfl
  exact ⟨out, hrun, hperm, Multiset.coe_eq_coe.mpr hperm, hperm.length_eq⟩

/-- C8: the claim says `binary_search` returns `None` without failing
whenever the key is absent from a sorted input.  The code violates it: on the
sorted input `[5]` with the absent key `3`, the loop reaches `low = high =
middle = 0` with `key < input[middle]` and evaluates `middle - 1` on `usize`,
which underflows — an arithmetic-overflow panic (or, with wrapped arithmetic,
an out-of-bounds index panic), modelled as `none` — instead of returning a
normal `None`. -/
theorem c8_binary_search_underflow_panic :
    binary_search [5] 3 = none ∧ (3 : Int) ∉ ([5] : List Int) := by
  refine ⟨?_, by decide⟩
  unfold binary_search
  norm_num
  rw [bsLoop]
  norm_num

/-- C9: the claim says a non-empty pattern never matches at a position whose
characters differ from the pattern, and that `kmp_search` returns `None` when
the pattern occurs nowhere.  The code violates it: the `j == 0 ||` disjunct
advances past the first pattern character without comparing it, so searching
for pattern "a" in text "b" yields `Some(0)` although the pattern occurs
nowhere in the text.  (The empty-pattern clause itself does hold: an empty
pattern yields `Some(0)`.) -/
theorem c9_kmp_search_matches_without_comparing :
    kmp_search ['b'] ['a'] 16 = some (some 0) ∧ ('a' : Char) ∉ (['b'] : List Char) ∧
    kmp_search ['x'] [] 16 = some (some 0) := by
  refine ⟨rfl, by decide, rfl⟩
